import Mathlib

/-
  Verification of the rand-functors library (strategy/functor abstractions for
  random processes) against its specification.

  Embedding conventions:
  * `Vec<I>` is modelled as `List I` (order-preserving).
  * `HashMap<I, N>` content is modelled as an association list `List (I × Nat)`;
    the source's `*map.entry(k).or_insert(0) += c` is `add_count`.  HashMap
    iteration order is unspecified in Rust, so every property proved about maps
    is content-level (weights of keys, sums of weights), never order-level.
  * `HashSet<I>` content is modelled as a `List I` built by insert-if-absent;
    properties proved about sets are membership-level.
  * `&mut impl Rng` is modelled as a `Rng` value (a stream of raw draws plus a
    position) threaded in and out of the operators that use it; operators whose
    source ignores the RNG parameter return it unchanged.
  * A Rust panic (integer division by zero in `fmap_flat`) is modelled by an
    `Option` result: `none` is the panic.
-/

set_option autoImplicit false

namespace RandFunctors

/-- The effect of the source idiom `*map.entry(b).or_insert(0) += c` on the
content of a `HashMap` modelled as an association list: add `c` to the entry
for `b`, inserting the key with weight `c` if it is absent. -/
def add_count {B : Type} [DecidableEq B] : List (B × Nat) → B → Nat → List (B × Nat)
  | [], b, c => [(b, c)]
  | (k, w) :: rest, b, c =>
    if k = b then (k, w + c) :: rest else (k, w) :: add_count rest b c

/-- The weight a map content assigns to key `b` (0 when absent).  Stated as a
sum over entries so that it is meaningful for arbitrary pair lists. -/
def weight {B : Type} [DecidableEq B] (m : List (B × Nat)) (b : B) : Nat :=
  (m.map (fun p => if p.1 = b then p.2 else 0)).sum

/-- The sum of all values of a map content: `f.values().sum()`. -/
def sum_values {B : Type} (m : List (B × Nat)) : Nat :=
  (m.map Prod.snd).sum

/-- The multiplicity of `b` in a sequence: the histogram of a `Vec` at `b`. -/
def multiplicity {B : Type} [DecidableEq B] (l : List B) (b : B) : Nat :=
  (l.map (fun a => if a = b then 1 else 0)).sum

/-- A caller-supplied random number generator: an infinite stream of raw
draws together with the position of the next draw. -/
structure Rng where
  stream : Nat → Nat
  pos : Nat

/-- `rng.gen_range(0..n)`: a draw reduced into `[0, n)`, advancing the
stream position by one. -/
def Rng.gen_range (g : Rng) (n : Nat) : Nat × Rng :=
  (g.stream g.pos % n, ⟨g.stream, g.pos + 1⟩)

/-- A value of `impl RandomVariableRange<R>` as the strategies consume it:
the only method they call is `sample_space`, which yields the members of the
range as a finite sequence. -/
structure RVRange (R : Type) where
  sample_space : List R

/-- The fold the source uses to combine child sizes:
`children.iter().fold(None, |lcm, c| Some(if let Some(l) = lcm
{ lcm(l, size c) } else { size c }))`.  Returns `none` exactly when the list
of children is empty. -/
def lcm_fold (sizes : List Nat) : Option Nat :=
  sizes.foldl
    (fun acc n =>
      some (match acc with
        | none => n
        | some l => Nat.lcm l n))
    none

namespace Enumerator

/-- `Functor::pure` for `Enumerator`: the singleton `vec![i]`. -/
def pure {A : Type} (i : A) : List A := [i]

/-- `Enumerator::fmap`: `f.into_iter().map(func).collect()`. -/
def fmap {A B : Type} (f : List A) (func : A → B) : List B :=
  f.map func

/-- `Enumerator::fmap_rand` with `space = R::sample_space()`:
`f.into_iter().flat_map(|a| space.map(move |r| (a.clone(), r)))
 .map(|(a, r)| func(a, r)).collect()`. -/
def fmap_rand {A B R : Type} (f : List A) (space : List R) (func : A → R → B) :
    List B :=
  (f.flatMap (fun a => space.map (fun r => (a, r)))).map (fun p => func p.1 p.2)

/-- `Enumerator::fmap_rand_range`: identical to `fmap_rand` but iterating
`range.sample_space()`. -/
def fmap_rand_range {A B R : Type} (f : List A) (range : RVRange R)
    (func : A → R → B) : List B :=
  (f.flatMap (fun a => range.sample_space.map (fun r => (a, r)))).map
    (fun p => func p.1 p.2)

/-- `Enumerator::fmap_flat`.  The source computes `children = f.map(func)`,
folds their lengths into `length_lcm`, returns the empty vector when there are
no children, and otherwise emits each child repeated `length_lcm / child.len()`
times.  When a child is empty that division is a division by zero, which
panics at runtime; the panic is modelled as `none`. -/
def fmap_flat {A B : Type} (f : List A) (func : A → List B) : Option (List B) :=
  let children := f.map func
  match lcm_fold (children.map List.length) with
  | none => some []
  | some length_lcm =>
    if children.any (fun c => c.length = 0) then none
    else
      some (children.flatMap
        (fun c => (List.replicate (length_lcm / c.length) c).flatten))

end Enumerator

namespace Counter

/-- `Functor::pure` for `Counter`: the singleton map `{i ↦ 1}`. -/
def pure {A : Type} (i : A) : List (A × Nat) := [(i, 1)]

/-- `Counter::fmap`: map each entry `(i, count)` to `(func i, count)` and merge
counts of colliding keys into a fresh map. -/
def fmap {A B : Type} [DecidableEq B] (f : List (A × Nat)) (func : A → B) :
    List (B × Nat) :=
  (f.map (fun p => (func p.1, p.2))).foldl (fun acc q => add_count acc q.1 q.2) []

/-- `Counter::fmap_rand` with `space = R::sample_space()`: for each entry
`(a, c)` and each `r` in the sample space, add `c` to the weight of
`func a r` in a fresh map. -/
def fmap_rand {A B R : Type} [DecidableEq B] (f : List (A × Nat)) (space : List R)
    (func : A → R → B) : List (B × Nat) :=
  ((f.flatMap (fun p => space.map (fun r => (p, r)))).map
      (fun q => (func q.1.1 q.2, q.1.2))).foldl
    (fun acc q => add_count acc q.1 q.2) []

/-- `Counter::fmap_rand_range`: identical to `fmap_rand` but iterating
`range.sample_space()`. -/
def fmap_rand_range {A B R : Type} [DecidableEq B] (f : List (A × Nat))
    (range : RVRange R) (func : A → R → B) : List (B × Nat) :=
  ((f.flatMap (fun p => range.sample_space.map (fun r => (p, r)))).map
      (fun q => (func q.1.1 q.2, q.1.2))).foldl
    (fun acc q => add_count acc q.1 q.2) []

/-- `Counter::fmap_flat`.  The source pairs every entry `(a, outer)` with its
child map `func a` and the sum of the child's values, folds the sums into
`inner_count_lcm` (`none` when `f` is empty, in which case the empty map is
returned), and then adds `(inner_count_lcm / inner_count_sum) * inner * outer`
for every child entry.  When a child's value sum is zero the scaling division
is a division by zero, which panics at runtime; the panic is modelled as
`none`. -/
def fmap_flat {A B : Type} [DecidableEq B] (f : List (A × Nat))
    (func : A → List (B × Nat)) : Option (List (B × Nat)) :=
  let children := f.map (fun p => (func p.1, p.2, sum_values (func p.1)))
  match lcm_fold (children.map (fun t => t.2.2)) with
  | none => some []
  | some inner_count_lcm =>
    if children.any (fun t => t.2.2 = 0) then none
    else
      some (children.foldl
        (fun acc t =>
          t.1.foldl
            (fun acc2 q =>
              add_count acc2 q.1 (inner_count_lcm / t.2.2 * q.2 * t.2.1))
            acc)
        [])

end Counter

/-- Insertion into a `HashSet` modelled as a duplicate-free list: a present
element leaves the set unchanged, an absent one is added. -/
def insert_set {A : Type} [DecidableEq A] (s : List A) (a : A) : List A :=
  if a ∈ s then s else s ++ [a]

namespace UniqueEnumerator

/-- `Functor::pure` for `UniqueEnumerator`: the singleton set `{i}`. -/
def pure {A : Type} (i : A) : List A := [i]

/-- `UniqueEnumerator::fmap`: `f.into_iter().map(func).collect()` into a
`HashSet`, deduplicating on insertion. -/
def fmap {A B : Type} [DecidableEq B] (f : List A) (func : A → B) : List B :=
  (f.map func).foldl insert_set []

/-- `UniqueEnumerator::fmap_rand`: the same Cartesian product as
`Enumerator::fmap_rand`, collected into a `HashSet`. -/
def fmap_rand {A B R : Type} [DecidableEq B] (f : List A) (space : List R)
    (func : A → R → B) : List B :=
  ((f.flatMap (fun a => space.map (fun r => (a, r)))).map
      (fun p => func p.1 p.2)).foldl insert_set []

/-- `UniqueEnumerator::fmap_rand_range`: identical to `fmap_rand` but iterating
`range.sample_space()`. -/
def fmap_rand_range {A B R : Type} [DecidableEq B] (f : List A)
    (range : RVRange R) (func : A → R → B) : List B :=
  ((f.flatMap (fun a => range.sample_space.map (fun r => (a, r)))).map
      (fun p => func p.1 p.2)).foldl insert_set []

/-- `UniqueEnumerator::fmap_flat`:
`f.into_iter().flat_map(func).collect()` into a `HashSet` — the union of the
children's elements, deduplicated on insertion.  `func a` here stands for the
elements of the child functor produced for `a`. -/
def fmap_flat {A B : Type} [DecidableEq B] (f : List A) (func : A → List B) :
    List B :=
  (f.flatMap func).foldl insert_set []

end UniqueEnumerator

/-- `Vec::swap_remove(i)`: overwrite index `i` with the last element, then pop
the last element.  Only ever called with a non-empty vector and `i` in
bounds. -/
def swap_remove {T : Type} (f : List T) (i : Nat) : List T :=
  match f.getLast? with
  | none => []
  | some x => (f.set i x).dropLast

namespace PopulationSampler

/-- `PopulationSampler::<N>::shrink_to_capacity`: while the vector is longer
than `N`, draw a uniform index into it with `rng.gen_range(0..len)` and
`swap_remove` that index. -/
def shrink_to_capacity {T : Type} (N : Nat) (f : List T) (rng : Rng) :
    List T × Rng :=
  if h : N < f.length then
    let p := rng.gen_range f.length
    shrink_to_capacity N (swap_remove f p.1) p.2
  else (f, rng)
termination_by f.length
decreasing_by
  have hlen : ∀ i, (swap_remove f i).length = f.length - 1 := by
    intro i
    unfold swap_remove
    cases hl : f.getLast? with
    | none =>
      have : f = [] := List.getLast?_eq_none_iff.mp hl
      rw [this] at h
      simp at h
    | some x => simp
  rw [hlen]
  omega

/-- `PopulationSampler::<N>::fmap`: `f.into_iter().map(func).collect()`. -/
def fmap {A B : Type} (N : Nat) (f : List A) (func : A → B) : List B :=
  f.map func

/-- `PopulationSampler::<N>::fmap_rand`: the Cartesian-product expansion of
`Enumerator::fmap_rand`, passed through `shrink_to_capacity` with the caller's
RNG. -/
def fmap_rand {A B R : Type} (N : Nat) (f : List A) (rng : Rng) (space : List R)
    (func : A → R → B) : List B × Rng :=
  shrink_to_capacity N
    ((f.flatMap (fun a => space.map (fun r => (a, r)))).map (fun p => func p.1 p.2))
    rng

/-- `PopulationSampler::<N>::fmap_rand_range`: the expansion over
`range.sample_space()`, passed through `shrink_to_capacity`. -/
def fmap_rand_range {A B R : Type} (N : Nat) (f : List A) (range : RVRange R)
    (rng : Rng) (func : A → R → B) : List B × Rng :=
  shrink_to_capacity N
    ((f.flatMap (fun a => range.sample_space.map (fun r => (a, r)))).map
      (fun p => func p.1 p.2))
    rng

end PopulationSampler

/-- `Enumerator::fmap_rand` as called: the RNG parameter is bound as `_` in
the source and never touched, so the call returns the functor together with
the generator in its incoming state. -/
def Enumerator.fmap_rand_with_rng {A B R : Type} (f : List A) (rng : Rng)
    (space : List R) (func : A → R → B) : List B × Rng :=
  (Enumerator.fmap_rand f space func, rng)

/-- `Enumerator::fmap_rand_range` as called: RNG bound as `_`, returned
unchanged. -/
def Enumerator.fmap_rand_range_with_rng {A B R : Type} (f : List A)
    (range : RVRange R) (rng : Rng) (func : A → R → B) : List B × Rng :=
  (Enumerator.fmap_rand_range f range func, rng)

/-- `Counter::fmap_rand` as called: RNG bound as `_`, returned unchanged. -/
def Counter.fmap_rand_with_rng {A B R : Type} [DecidableEq B] (f : List (A × Nat))
    (rng : Rng) (space : List R) (func : A → R → B) : List (B × Nat) × Rng :=
  (Counter.fmap_rand f space func, rng)

/-- `Counter::fmap_rand_range` as called: RNG bound as `_`, returned
unchanged. -/
def Counter.fmap_rand_range_with_rng {A B R : Type} [DecidableEq B]
    (f : List (A × Nat)) (range : RVRange R) (rng : Rng) (func : A → R → B) :
    List (B × Nat) × Rng :=
  (Counter.fmap_rand_range f range func, rng)

/-- `UniqueEnumerator::fmap_rand` as called: RNG bound as `_`, returned
unchanged. -/
def UniqueEnumerator.fmap_rand_with_rng {A B R : Type} [DecidableEq B]
    (f : List A) (rng : Rng) (space : List R) (func : A → R → B) :
    List B × Rng :=
  (UniqueEnumerator.fmap_rand f space func, rng)

/-- `UniqueEnumerator::fmap_rand_range` as called: RNG bound as `_`, returned
unchanged. -/
def UniqueEnumerator.fmap_rand_range_with_rng {A B R : Type} [DecidableEq B]
    (f : List A) (range : RVRange R) (rng : Rng) (func : A → R → B) :
    List B × Rng :=
  (UniqueEnumerator.fmap_rand_range f range func, rng)

/-- One stage of a random process over value type `V`: the operators every
`RandomStrategy` provides.  Each `fmap_rand` stage records the sample space of
its random variable type, and each `fmap_rand_range` stage records its range,
so that two strategies replaying the list use the same functions, the same
random variable types and the same ranges. -/
inductive PStep (V : Type) : Type 1 where
  | fmap (g : V → V)
  | fmap_rand (R : Type) (space : List R) (g : V → R → V)
  | fmap_rand_range (R : Type) (range : RVRange R) (g : V → R → V)

/-- Run a process (an initial functor followed by stages) under the
`Enumerator` strategy. -/
def run_enumerator {V : Type} : List (PStep V) → List V → List V
  | [], f => f
  | PStep.fmap g :: rest, f => run_enumerator rest (Enumerator.fmap f g)
  | PStep.fmap_rand _ space g :: rest, f =>
    run_enumerator rest (Enumerator.fmap_rand f space g)
  | PStep.fmap_rand_range _ range g :: rest, f =>
    run_enumerator rest (Enumerator.fmap_rand_range f range g)

/-- Run a process under the `Counter` strategy. -/
def run_counter {V : Type} [DecidableEq V] :
    List (PStep V) → List (V × Nat) → List (V × Nat)
  | [], f => f
  | PStep.fmap g :: rest, f => run_counter rest (Counter.fmap f g)
  | PStep.fmap_rand _ space g :: rest, f =>
    run_counter rest (Counter.fmap_rand f space g)
  | PStep.fmap_rand_range _ range g :: rest, f =>
    run_counter rest (Counter.fmap_rand_range f range g)

/-- One stage of a random process for the flattenable strategies: the `PStep`
stages plus `fmap_flat`.  The `fmap_flat` stage records, for each value, the
elements of the child functor built for it; `Enumerator` consumes them as the
child vector, `UniqueEnumerator` collects them into the child set. -/
inductive FStep (V : Type) : Type 1 where
  | fmap (g : V → V)
  | fmap_rand (R : Type) (space : List R) (g : V → R → V)
  | fmap_rand_range (R : Type) (range : RVRange R) (g : V → R → V)
  | fmap_flat (g : V → List V)

/-- Run a flattenable process under `Enumerator`; `none` is a runtime panic
in some `fmap_flat` stage. -/
def run_enumerator_flat {V : Type} : List (FStep V) → List V → Option (List V)
  | [], f => some f
  | FStep.fmap g :: rest, f => run_enumerator_flat rest (Enumerator.fmap f g)
  | FStep.fmap_rand _ space g :: rest, f =>
    run_enumerator_flat rest (Enumerator.fmap_rand f space g)
  | FStep.fmap_rand_range _ range g :: rest, f =>
    run_enumerator_flat rest (Enumerator.fmap_rand_range f range g)
  | FStep.fmap_flat g :: rest, f =>
    match Enumerator.fmap_flat f g with
    | none => none
    | some f2 => run_enumerator_flat rest f2

/-- Run a flattenable process under `UniqueEnumerator`. -/
def run_unique {V : Type} [DecidableEq V] : List (FStep V) → List V → List V
  | [], f => f
  | FStep.fmap g :: rest, f => run_unique rest (UniqueEnumerator.fmap f g)
  | FStep.fmap_rand _ space g :: rest, f =>
    run_unique rest (UniqueEnumerator.fmap_rand f space g)
  | FStep.fmap_rand_range _ range g :: rest, f =>
    run_unique rest (UniqueEnumerator.fmap_rand_range f range g)
  | FStep.fmap_flat g :: rest, f =>
    run_unique rest (UniqueEnumerator.fmap_flat f g)

/-- The thirteen built-in Rust integer types that could carry a
`RandomVariable` or `RandomVariableRange` implementation. -/
inductive IntTy where
  | u8 | u16 | u32 | u64 | u128 | usize
  | i8 | i16 | i32 | i64 | i128 | isize
  deriving DecidableEq

/-- The integer types given a `RandomVariable` implementation in
`random_variables.rs` (the twelve macro instantiations). -/
def random_variable_int_impls : List IntTy :=
  [.u8, .u16, .u32, .u64, .u128, .usize, .i8, .i16, .i32, .i64, .i128, .isize]

/-- The integer types `T` for which `random_variable_ranges.rs` instantiates
`impl RandomVariableRange<T> for Range<T>` (its first block of macro
invocations). -/
def range_impls : List IntTy :=
  [.u8, .u16, .u32, .u64, .u128, .i8, .i16, .i32, .i64, .i128]

/-- The integer types `T` for which `random_variable_ranges.rs` instantiates
`impl RandomVariableRange<T> for RangeInclusive<T>` (its second block of macro
invocations). -/
def range_inclusive_impls : List IntTy :=
  [.u8, .u16, .u32, .u64, .u128, .i8, .i16, .i32, .i64, .i128]

/-- The sequence produced by `Range<T>::sample_space`, which iterates
`self.clone()`: the values `lo, lo+1, …, hi-1`, empty when `hi ≤ lo`.  Each
fixed-width integer type is embedded into `Int`. -/
def range_sample_space (lo hi : Int) : List Int :=
  (List.range (hi - lo).toNat).map (fun k : Nat => lo + (k : Int))

/-- The sequence produced by `RangeInclusive<T>::sample_space`, which iterates
`self.clone()`: the values `lo, lo+1, …, hi`, empty when `hi < lo`. -/
def range_inclusive_sample_space (lo hi : Int) : List Int :=
  (List.range (hi + 1 - lo).toNat).map (fun k : Nat => lo + (k : Int))

/-- The multiset of outcomes a map content stands for: each key with its
weight as multiplicity.  This is the bridge between `Counter`'s map shape and
`Enumerator`'s sequence shape. -/
def cmset {V : Type} (m : List (V × Nat)) : Multiset V :=
  (m.map (fun p => Multiset.replicate p.2 p.1)).sum

/-- The least common multiple of a list of sizes, as the specification writes
it: `lcm` over the list, with the empty lcm equal to 1. -/
def spec_lcm (l : List Nat) : Nat :=
  l.foldr Nat.lcm 1

/- ------------------------------------------------------------------ -/
/- Helper lemmas: association-list maps.                               -/
/- ------------------------------------------------------------------ -/

theorem weight_nil {B : Type} [DecidableEq B] (b : B) :
    weight ([] : List (B × Nat)) b = 0 := rfl

theorem weight_cons {B : Type} [DecidableEq B] (p : B × Nat) (m : List (B × Nat))
    (b : B) :
    weight (p :: m) b = (if p.1 = b then p.2 else 0) + weight m b := by
  simp [weight]

theorem weight_add_count {B : Type} [DecidableEq B] (m : List (B × Nat))
    (b b' : B) (c : Nat) :
    weight (add_count m b c) b' = weight m b' + (if b = b' then c else 0) := by
  induction m with
  | nil => simp [add_count, weight]
  | cons p rest ih =>
    obtain ⟨k, w⟩ := p
    unfold add_count
    by_cases hk : k = b
    · subst hk
      rw [if_pos rfl, weight_cons, weight_cons]
      by_cases hb : k = b' <;> simp [hb] <;> omega
    · rw [if_neg hk, weight_cons, weight_cons, ih]
      omega

theorem sum_values_add_count {B : Type} [DecidableEq B] (m : List (B × Nat))
    (b : B) (c : Nat) :
    sum_values (add_count m b c) = sum_values m + c := by
  induction m with
  | nil => simp [add_count, sum_values]
  | cons p rest ih =>
    obtain ⟨k, w⟩ := p
    by_cases hk : k = b <;> simp [add_count, hk, sum_values] at ih ⊢ <;> omega

theorem cmset_nil {V : Type} : cmset ([] : List (V × Nat)) = 0 := rfl

theorem cmset_cons {V : Type} (p : V × Nat) (m : List (V × Nat)) :
    cmset (p :: m) = Multiset.replicate p.2 p.1 + cmset m := by
  simp [cmset]

theorem cmset_add_count {V : Type} [DecidableEq V] (m : List (V × Nat))
    (b : V) (c : Nat) :
    cmset (add_count m b c) = cmset m + Multiset.replicate c b := by
  induction m with
  | nil => simp [add_count, cmset]
  | cons p rest ih =>
    obtain ⟨k, w⟩ := p
    by_cases hk : k = b
    · subst hk
      rw [add_count, if_pos rfl, cmset_cons, cmset_cons]
      simp [Multiset.replicate_add]
      abel
    · rw [add_count, if_neg hk, cmset_cons, cmset_cons, ih]
      abel

theorem cmset_foldl_add_count {V : Type} [DecidableEq V]
    (ps : List (V × Nat)) (init : List (V × Nat)) :
    cmset (ps.foldl (fun acc q => add_count acc q.1 q.2) init) =
      cmset init + cmset ps := by
  induction ps generalizing init with
  | nil => simp [cmset]
  | cons q rest ih =>
    rw [List.foldl_cons, ih, cmset_add_count, cmset_cons]
    abel

/-- Weighted sums over a map content only depend on the multiset it stands
for: if `cmset m` is the multiset of the list `l`, then summing `p.2 • k p.1`
over the entries of `m` is summing `k` over `l`. -/
theorem sum_smul_eq_cmset_sum {V W : Type} [AddCommMonoid W]
    (m : List (V × Nat)) (k : V → W) :
    (m.map (fun p => p.2 • k p.1)).sum = ((cmset m).map k).sum := by
  induction m with
  | nil => simp [cmset]
  | cons p rest ih =>
    rw [List.map_cons, List.sum_cons, ih, cmset_cons, Multiset.map_add,
      Multiset.sum_add, Multiset.map_replicate, Multiset.sum_replicate]

/-- Weighted sums over a map content only depend on the multiset it stands
for: if `cmset m` is the multiset of the list `l`, then summing `p.2 • k p.1`
over the entries of `m` is summing `k` over `l`. -/
theorem sum_smul_of_cmset_eq {V W : Type} [AddCommMonoid W]
    (m : List (V × Nat)) (l : List V) (h : cmset m = (l : Multiset V))
    (k : V → W) :
    (m.map (fun p => p.2 • k p.1)).sum = (l.map k).sum := by
  rw [sum_smul_eq_cmset_sum, h, Multiset.map_coe, Multiset.sum_coe]

theorem weight_eq_sum_smul {B : Type} [DecidableEq B] (m : List (B × Nat))
    (b : B) :
    weight m b = (m.map (fun p => p.2 • (if p.1 = b then 1 else 0))).sum := by
  unfold weight
  congr 1
  apply List.map_congr_left
  intro p _
  by_cases hp : p.1 = b <;> simp [hp]

theorem sum_values_eq_sum_smul {B : Type} (m : List (B × Nat)) :
    sum_values m = (m.map (fun p => p.2 • (1 : Nat))).sum := by
  simp [sum_values, smul_eq_mul]

theorem sum_map_one {B : Type} (l : List B) :
    (l.map (fun _ => (1 : Nat))).sum = l.length := by
  simp

theorem cmset_append {V : Type} (x y : List (V × Nat)) :
    cmset (x ++ y) = cmset x + cmset y := by
  simp [cmset]

theorem coe_eq_sum_singleton {V : Type} (l : List V) :
    (l.map (fun a => ({a} : Multiset V))).sum = (l : Multiset V) := by
  induction l with
  | nil => rfl
  | cons a rest ih =>
    rw [List.map_cons, List.sum_cons, ih, ← Multiset.cons_coe,
      Multiset.singleton_add]

theorem sum_flatMap {A B : Type} [AddCommMonoid B] (l : List A)
    (j : A → List B) :
    ((l.flatMap j).sum) = (l.map (fun a => (j a).sum)).sum := by
  induction l with
  | nil => rfl
  | cons a rest ih => simp [List.flatMap_cons, List.sum_append, ih]

theorem coe_flatMap {A V : Type} (l : List A) (h : A → List V) :
    ((l.flatMap h : List V) : Multiset V)
      = (l.map (fun a => ((h a : List V) : Multiset V))).sum := by
  induction l with
  | nil => rfl
  | cons a rest ih =>
    rw [List.flatMap_cons, ← Multiset.coe_add, ih, List.map_cons,
      List.sum_cons]

theorem sum_replicate_map {R V : Type} (sp : List R) (c : Nat) (u : R → V) :
    (sp.map (fun r => Multiset.replicate c (u r))).sum
      = c • ((sp.map u : List V) : Multiset V) := by
  induction sp with
  | nil => simp
  | cons r rest ih =>
    rw [List.map_cons, List.sum_cons, ih, List.map_cons, ← Multiset.cons_coe,
      ← Multiset.singleton_add, smul_add, ← Multiset.nsmul_singleton]

/- ------------------------------------------------------------------ -/
/- Helper lemmas: strategy operators.                                  -/
/- ------------------------------------------------------------------ -/

theorem Enumerator.fmap_rand_eq {A B R : Type} (f : List A) (space : List R)
    (func : A → R → B) :
    Enumerator.fmap_rand f space func
      = f.flatMap (fun a => space.map (func a)) := by
  simp only [Enumerator.fmap_rand, List.map_flatMap, List.map_map]
  rfl

theorem enumerator_fmap_rand_range_eq {A B R : Type} (f : List A)
    (range : RVRange R) (func : A → R → B) :
    Enumerator.fmap_rand_range f range func
      = Enumerator.fmap_rand f range.sample_space func := rfl

theorem counter_fmap_rand_range_eq {A B R : Type} [DecidableEq B]
    (f : List (A × Nat)) (range : RVRange R) (func : A → R → B) :
    Counter.fmap_rand_range f range func
      = Counter.fmap_rand f range.sample_space func := rfl

theorem unique_fmap_rand_range_eq {A B R : Type} [DecidableEq B]
    (f : List A) (range : RVRange R) (func : A → R → B) :
    UniqueEnumerator.fmap_rand_range f range func
      = UniqueEnumerator.fmap_rand f range.sample_space func := rfl

theorem cmset_counter_fmap {A B : Type} [DecidableEq B] (m : List (A × Nat))
    (g : A → B) :
    cmset (Counter.fmap m g)
      = (m.map (fun p => p.2 • ({g p.1} : Multiset B))).sum := by
  unfold Counter.fmap
  rw [cmset_foldl_add_count, cmset_nil, zero_add]
  unfold cmset
  rw [List.map_map]
  congr 1
  apply List.map_congr_left
  intro p _
  simp [← Multiset.nsmul_singleton]

theorem cmset_counter_fmap_rand {A B R : Type} [DecidableEq B]
    (m : List (A × Nat)) (space : List R) (g : A → R → B) :
    cmset (Counter.fmap_rand m space g)
      = (m.map (fun p => p.2 • ((space.map (g p.1) : List B) : Multiset B))).sum := by
  unfold Counter.fmap_rand
  rw [cmset_foldl_add_count, cmset_nil, zero_add]
  induction m with
  | nil => rfl
  | cons p rest ih =>
    rw [List.flatMap_cons, List.map_append, cmset_append, ih, List.map_cons,
      List.sum_cons]
    congr 1
    unfold cmset
    rw [List.map_map, List.map_map]
    rw [← sum_replicate_map space p.2 (g p.1)]
    congr 1

theorem coe_enumerator_fmap {A B : Type} (l : List A) (g : A → B) :
    ((Enumerator.fmap l g : List B) : Multiset B)
      = (l.map (fun a => ({g a} : Multiset B))).sum := by
  unfold Enumerator.fmap
  rw [← coe_eq_sum_singleton (l.map g), List.map_map]
  rfl

theorem coe_enumerator_fmap_rand {A B R : Type} (l : List A) (space : List R)
    (g : A → R → B) :
    ((Enumerator.fmap_rand l space g : List B) : Multiset B)
      = (l.map (fun a => ((space.map (g a) : List B) : Multiset B))).sum := by
  rw [Enumerator.fmap_rand_eq, coe_flatMap]

/- ------------------------------------------------------------------ -/
/- The Counter / Enumerator simulation invariant.                      -/
/- ------------------------------------------------------------------ -/

theorem run_counter_cmset {V : Type} [DecidableEq V] (steps : List (PStep V))
    (m : List (V × Nat)) (l : List V) (h : cmset m = (l : Multiset V)) :
    cmset (run_counter steps m)
      = ((run_enumerator steps l : List V) : Multiset V) := by
  induction steps generalizing m l with
  | nil => exact h
  | cons s rest ih =>
    cases s with
    | fmap g =>
      apply ih
      rw [cmset_counter_fmap, coe_enumerator_fmap]
      exact sum_smul_of_cmset_eq m l h (fun a => ({g a} : Multiset V))
    | fmap_rand R space g =>
      apply ih
      rw [cmset_counter_fmap_rand, coe_enumerator_fmap_rand]
      exact sum_smul_of_cmset_eq m l h
        (fun a => ((space.map (g a) : List V) : Multiset V))
    | fmap_rand_range R range g =>
      apply ih
      rw [counter_fmap_rand_range_eq, enumerator_fmap_rand_range_eq,
        cmset_counter_fmap_rand, coe_enumerator_fmap_rand]
      exact sum_smul_of_cmset_eq m l h
        (fun a => ((range.sample_space.map (g a) : List V) : Multiset V))

/- ------------------------------------------------------------------ -/
/- Helper lemmas: the lcm fold.                                        -/
/- ------------------------------------------------------------------ -/

theorem lcm_fold_nil : lcm_fold [] = none := rfl

theorem lcm_fold_aux (xs : List Nat) (a : Nat) :
    xs.foldl
        (fun acc n =>
          some (match acc with
            | none => n
            | some l => Nat.lcm l n))
        (some a)
      = some (xs.foldl Nat.lcm a) := by
  induction xs generalizing a with
  | nil => rfl
  | cons x rest ih => simp [List.foldl_cons, ih]

theorem foldl_lcm_eq_spec_lcm (xs : List Nat) (a : Nat) :
    xs.foldl Nat.lcm a = Nat.lcm a (spec_lcm xs) := by
  induction xs generalizing a with
  | nil => simp [spec_lcm, Nat.lcm_one_right]
  | cons x rest ih =>
    rw [List.foldl_cons, ih]
    show (a.lcm x).lcm (spec_lcm rest) = a.lcm (spec_lcm (x :: rest))
    rw [Nat.lcm_assoc]
    rfl

theorem lcm_fold_cons (x : Nat) (xs : List Nat) :
    lcm_fold (x :: xs) = some (spec_lcm (x :: xs)) := by
  unfold lcm_fold
  rw [List.foldl_cons]
  show xs.foldl _ (some x) = _
  rw [lcm_fold_aux, foldl_lcm_eq_spec_lcm]
  rfl

theorem dvd_spec_lcm (l : List Nat) (x : Nat) (hx : x ∈ l) : x ∣ spec_lcm l := by
  induction l with
  | nil => cases hx
  | cons y rest ih =>
    rcases List.mem_cons.mp hx with h | h
    · subst h
      exact Nat.dvd_lcm_left _ _
    · exact (ih h).trans (Nat.dvd_lcm_right _ _)

theorem spec_lcm_ne_zero (l : List Nat) (h : ∀ x ∈ l, x ≠ 0) :
    spec_lcm l ≠ 0 := by
  induction l with
  | nil => simp [spec_lcm]
  | cons y rest ih =>
    exact Nat.lcm_ne_zero (h y (List.mem_cons_self y rest))
      (ih (fun x hx => h x (List.mem_cons_of_mem y hx)))

/- ------------------------------------------------------------------ -/
/- Helper lemmas: fmap_flat shapes.                                    -/
/- ------------------------------------------------------------------ -/

theorem enumerator_fmap_flat_nil {A B : Type} (func : A → List B) :
    Enumerator.fmap_flat ([] : List A) func = some [] := rfl

theorem counter_fmap_flat_nil {A B : Type} [DecidableEq B]
    (func : A → List (B × Nat)) :
    Counter.fmap_flat ([] : List (A × Nat)) func = some [] := rfl

theorem enumerator_fmap_flat_shape {A B : Type} (f : List A) (func : A → List B)
    (hf : f ≠ []) :
    Enumerator.fmap_flat f func
      = if (f.map func).any (fun c => c.length = 0) then none
        else some ((f.map func).flatMap
          (fun c =>
            (List.replicate (spec_lcm ((f.map func).map List.length) / c.length)
              c).flatten)) := by
  obtain ⟨a, rest, rfl⟩ := List.exists_cons_of_ne_nil hf
  unfold Enumerator.fmap_flat
  dsimp only
  have hl : lcm_fold (((a :: rest).map func).map List.length)
      = some (spec_lcm (((a :: rest).map func).map List.length)) := by
    simp only [List.map_cons]
    exact lcm_fold_cons _ _
  rw [hl]

theorem enumerator_fmap_flat_eq_none_iff {A B : Type} (f : List A)
    (func : A → List B) :
    Enumerator.fmap_flat f func = none ↔ f ≠ [] ∧ ∃ a ∈ f, func a = [] := by
  cases f with
  | nil => simp [enumerator_fmap_flat_nil]
  | cons a rest =>
    rw [enumerator_fmap_flat_shape _ _ (List.cons_ne_nil a rest)]
    by_cases hany : ((a :: rest).map func).any (fun c => c.length = 0)
    · rw [if_pos hany]
      simp only [List.any_eq_true, List.mem_map, decide_eq_true_eq] at hany
      obtain ⟨c, ⟨a2, ha2, rfl⟩, hc⟩ := hany
      simp only [true_iff, eq_self_iff_true]
      exact ⟨List.cons_ne_nil a rest, a2, ha2, List.length_eq_zero.mp hc⟩
    · rw [if_neg hany]
      simp only [List.any_eq_true, List.mem_map, decide_eq_true_eq] at hany
      push_neg at hany
      constructor
      · intro hc
        cases hc
      · rintro ⟨-, a2, ha2, hnil⟩
        exact absurd (by rw [hnil]; rfl) (hany (func a2) ⟨a2, ha2, rfl⟩)

theorem enumerator_fmap_flat_spec {A B : Type} (f : List A) (func : A → List B)
    (h : ∀ a ∈ f, (func a).length ≠ 0) :
    Enumerator.fmap_flat f func
      = some (f.flatMap (fun a =>
          (List.replicate
              (spec_lcm (f.map (fun a2 => (func a2).length)) / (func a).length)
            (func a)).flatten)) := by
  cases f with
  | nil => rfl
  | cons a rest =>
    rw [enumerator_fmap_flat_shape _ _ (List.cons_ne_nil a rest)]
    have hany : ((a :: rest).map func).any (fun c => c.length = 0) = false := by
      simp only [List.any_eq_false, List.mem_map, decide_eq_true_eq]
      rintro c ⟨a2, ha2, rfl⟩
      exact h a2 ha2
    rw [if_neg (by rw [hany]; exact Bool.false_ne_true)]
    rw [List.flatMap_map, List.map_map]
    rfl

theorem flatten_replicate_mem {B : Type} (n : Nat) (c : List B) (x : B) :
    x ∈ (List.replicate n c).flatten ↔ n ≠ 0 ∧ x ∈ c := by
  induction n with
  | zero => simp
  | succ k ih =>
    rw [List.replicate_succ]
    simp only [List.flatten_cons, List.mem_append, ih]
    constructor
    · rintro (hx | ⟨-, hx⟩) <;> exact ⟨Nat.succ_ne_zero k, hx⟩
    · rintro ⟨-, hx⟩
      exact Or.inl hx

theorem counter_fmap_flat_shape {A B : Type} [DecidableEq B] (f : List (A × Nat))
    (func : A → List (B × Nat)) (hf : f ≠ []) :
    Counter.fmap_flat f func
      = if (f.map (fun p => (func p.1, p.2, sum_values (func p.1)))).any
            (fun t => t.2.2 = 0) then none
        else
          some ((f.map (fun p => (func p.1, p.2, sum_values (func p.1)))).foldl
            (fun acc t =>
              t.1.foldl
                (fun acc2 q =>
                  add_count acc2 q.1
                    (spec_lcm ((f.map
                          (fun p => (func p.1, p.2, sum_values (func p.1)))).map
                        (fun t => t.2.2)) / t.2.2 * q.2 * t.2.1))
                acc)
            []) := by
  obtain ⟨p, rest, rfl⟩ := List.exists_cons_of_ne_nil hf
  unfold Counter.fmap_flat
  dsimp only
  have hl : lcm_fold (((p :: rest).map
        (fun p => (func p.1, p.2, sum_values (func p.1)))).map (fun t => t.2.2))
      = some (spec_lcm (((p :: rest).map
          (fun p => (func p.1, p.2, sum_values (func p.1)))).map
        (fun t => t.2.2))) := by
    simp only [List.map_cons]
    exact lcm_fold_cons _ _
  rw [hl]

theorem counter_fmap_flat_eq_none_iff {A B : Type} [DecidableEq B]
    (f : List (A × Nat)) (func : A → List (B × Nat)) :
    Counter.fmap_flat f func = none
      ↔ f ≠ [] ∧ ∃ p ∈ f, sum_values (func p.1) = 0 := by
  cases f with
  | nil => simp [counter_fmap_flat_nil]
  | cons p rest =>
    rw [counter_fmap_flat_shape _ _ (List.cons_ne_nil p rest)]
    by_cases hany : ((p :: rest).map
        (fun p => (func p.1, p.2, sum_values (func p.1)))).any (fun t => t.2.2 = 0)
    · rw [if_pos hany]
      simp only [List.any_eq_true, List.mem_map, decide_eq_true_eq] at hany
      obtain ⟨t, ⟨p2, hp2, rfl⟩, ht⟩ := hany
      simp only [true_iff, eq_self_iff_true]
      exact ⟨List.cons_ne_nil p rest, p2, hp2, ht⟩
    · rw [if_neg hany]
      simp only [List.any_eq_true, List.mem_map, decide_eq_true_eq] at hany
      push_neg at hany
      constructor
      · intro hc
        cases hc
      · rintro ⟨-, p2, hp2, hzero⟩
        exact absurd hzero (hany _ ⟨p2, hp2, rfl⟩)

theorem weight_foldl_add_pairs {B : Type} [DecidableEq B] (s c : Nat)
    (t1 : List (B × Nat)) (init : List (B × Nat)) (b : B) :
    weight (t1.foldl (fun acc2 q => add_count acc2 q.1 (s * q.2 * c)) init) b
      = weight init b + s * weight t1 b * c := by
  induction t1 generalizing init with
  | nil =>
    rw [List.foldl_nil, weight_nil]
    simp
  | cons q qs ih =>
    rw [List.foldl_cons, ih, weight_add_count, weight_cons]
    by_cases hq : q.1 = b <;> simp [hq] <;> ring

theorem sum_values_foldl_add_pairs {B : Type} [DecidableEq B] (s c : Nat)
    (t1 : List (B × Nat)) (init : List (B × Nat)) :
    sum_values (t1.foldl (fun acc2 q => add_count acc2 q.1 (s * q.2 * c)) init)
      = sum_values init + s * sum_values t1 * c := by
  induction t1 generalizing init with
  | nil =>
    rw [List.foldl_nil]
    simp [sum_values]
  | cons q qs ih =>
    rw [List.foldl_cons, ih, sum_values_add_count]
    have : sum_values (q :: qs) = q.2 + sum_values qs := by simp [sum_values]
    rw [this]
    ring

theorem counter_flat_fold_weight {B : Type} [DecidableEq B]
    (children : List (List (B × Nat) × Nat × Nat)) (M : Nat)
    (init : List (B × Nat)) (b : B) :
    weight (children.foldl
        (fun acc t =>
          t.1.foldl
            (fun acc2 q => add_count acc2 q.1 (M / t.2.2 * q.2 * t.2.1)) acc)
        init) b
      = weight init b
        + (children.map (fun t => M / t.2.2 * weight t.1 b * t.2.1)).sum := by
  induction children generalizing init with
  | nil => simp
  | cons t rest ih =>
    rw [List.foldl_cons, ih, weight_foldl_add_pairs, List.map_cons,
      List.sum_cons]
    omega

theorem counter_flat_fold_sum {B : Type} [DecidableEq B]
    (children : List (List (B × Nat) × Nat × Nat)) (M : Nat)
    (init : List (B × Nat)) :
    sum_values (children.foldl
        (fun acc t =>
          t.1.foldl
            (fun acc2 q => add_count acc2 q.1 (M / t.2.2 * q.2 * t.2.1)) acc)
        init)
      = sum_values init
        + (children.map (fun t => M / t.2.2 * sum_values t.1 * t.2.1)).sum := by
  induction children generalizing init with
  | nil => simp [sum_values]
  | cons t rest ih =>
    rw [List.foldl_cons, ih, sum_values_foldl_add_pairs, List.map_cons,
      List.sum_cons]
    omega

theorem mem_insert_set {A : Type} [DecidableEq A] (s : List A) (a x : A) :
    x ∈ insert_set s a ↔ x ∈ s ∨ x = a := by
  unfold insert_set
  by_cases ha : a ∈ s
  · rw [if_pos ha]
    constructor
    · exact Or.inl
    · rintro (hx | rfl) <;> [exact hx; exact ha]
  · rw [if_neg ha]
    simp

theorem mem_foldl_insert_set {A : Type} [DecidableEq A] (l : List A)
    (init : List A) (x : A) :
    x ∈ l.foldl insert_set init ↔ x ∈ init ∨ x ∈ l := by
  induction l generalizing init with
  | nil => simp
  | cons a rest ih =>
    rw [List.foldl_cons, ih, mem_insert_set]
    simp only [List.mem_cons]
    tauto

theorem enumerator_fmap_rand_length {A B R : Type} (f : List A) (space : List R)
    (func : A → R → B) :
    (Enumerator.fmap_rand f space func).length = f.length * space.length := by
  rw [Enumerator.fmap_rand_eq]
  induction f with
  | nil => simp
  | cons a rest ih =>
    rw [List.flatMap_cons, List.length_append, ih, List.length_map,
      List.length_cons]
    ring

theorem enumerator_fmap_rand_get {A B R : Type} (f : List A) (space : List R)
    (func : A → R → B) (i j : Nat) (hi : i < f.length) (hj : j < space.length) :
    (Enumerator.fmap_rand f space func)[i * space.length + j]?
      = some (func (f.get ⟨i, hi⟩) (space.get ⟨j, hj⟩)) := by
  rw [Enumerator.fmap_rand_eq]
  induction f generalizing i with
  | nil => exact absurd hi (Nat.not_lt_zero i)
  | cons a rest ih =>
    rw [List.flatMap_cons]
    cases i with
    | zero =>
      rw [Nat.zero_mul, Nat.zero_add,
        List.getElem?_append_left (by rw [List.length_map]; exact hj),
        List.getElem?_map, List.getElem?_eq_getElem hj]
      rfl
    | succ i2 =>
      have hlen : (space.map (func a)).length = space.length :=
        List.length_map _ _
      rw [List.getElem?_append_right (by rw [hlen, Nat.succ_mul]; omega), hlen]
      have harith : i2.succ * space.length + j - space.length
          = i2 * space.length + j := by
        rw [Nat.succ_mul]
        omega
      rw [harith]
      exact ih i2 (Nat.lt_of_succ_lt_succ hi)

theorem swap_remove_length {T : Type} (f : List T) (i : Nat) (h : f ≠ []) :
    (swap_remove f i).length = f.length - 1 := by
  unfold swap_remove
  cases hl : f.getLast? with
  | none => exact absurd (List.getLast?_eq_none_iff.mp hl) h
  | some x => simp

theorem shrink_to_capacity_length {T : Type} (N : Nat) (f : List T)
    (rng : Rng) :
    ((PopulationSampler.shrink_to_capacity N f rng).1).length
      = min f.length N := by
  induction f, rng using PopulationSampler.shrink_to_capacity.induct N with
  | case1 f rng h p ih =>
    rw [PopulationSampler.shrink_to_capacity, dif_pos h]
    have hne : f ≠ [] := by
      intro hnil
      rw [hnil] at h
      simp at h
    show (PopulationSampler.shrink_to_capacity N
        (swap_remove f p.1) p.2).1.length = min f.length N
    rw [ih, swap_remove_length f _ hne]
    omega
  | case2 f rng h =>
    rw [PopulationSampler.shrink_to_capacity, dif_neg h]
    show f.length = min f.length N
    omega

theorem population_sampler_fmap_rand_eq {A B R : Type} (N : Nat) (f : List A)
    (rng : Rng) (space : List R) (func : A → R → B) :
    PopulationSampler.fmap_rand N f rng space func
      = PopulationSampler.shrink_to_capacity N
          (Enumerator.fmap_rand f space func) rng := rfl

theorem population_sampler_fmap_rand_range_eq {A B R : Type} (N : Nat)
    (f : List A) (range : RVRange R) (rng : Rng) (func : A → R → B) :
    PopulationSampler.fmap_rand_range N f range rng func
      = PopulationSampler.shrink_to_capacity N
          (Enumerator.fmap_rand f range.sample_space func) rng := rfl

theorem mem_enumerator_fmap {A B : Type} (l : List A) (g : A → B) (x : B) :
    x ∈ Enumerator.fmap l g ↔ ∃ a ∈ l, g a = x := by
  simp [Enumerator.fmap]

theorem mem_unique_fmap {A B : Type} [DecidableEq B] (u : List A) (g : A → B)
    (x : B) :
    x ∈ UniqueEnumerator.fmap u g ↔ ∃ a ∈ u, g a = x :=
  (mem_foldl_insert_set (u.map g) [] x).trans (by simp)

theorem mem_enumerator_fmap_rand {A B R : Type} (l : List A) (space : List R)
    (g : A → R → B) (x : B) :
    x ∈ Enumerator.fmap_rand l space g ↔ ∃ a ∈ l, ∃ r ∈ space, g a r = x := by
  rw [Enumerator.fmap_rand_eq]
  simp [List.mem_flatMap]

theorem mem_unique_fmap_rand {A B R : Type} [DecidableEq B] (u : List A)
    (space : List R) (g : A → R → B) (x : B) :
    x ∈ UniqueEnumerator.fmap_rand u space g
      ↔ ∃ a ∈ u, ∃ r ∈ space, g a r = x :=
  (mem_foldl_insert_set (Enumerator.fmap_rand u space g) [] x).trans
    (by simp [mem_enumerator_fmap_rand])

theorem mem_unique_fmap_flat {A B : Type} [DecidableEq B] (u : List A)
    (g : A → List B) (x : B) :
    x ∈ UniqueEnumerator.fmap_flat u g ↔ ∃ a ∈ u, x ∈ g a :=
  (mem_foldl_insert_set (u.flatMap g) [] x).trans (by simp [List.mem_flatMap])

theorem mem_enumerator_fmap_flat_of_some {A B : Type} (f : List A)
    (g : A → List B) (out : List B)
    (hsome : Enumerator.fmap_flat f g = some out) (x : B) :
    x ∈ out ↔ ∃ a ∈ f, x ∈ g a := by
  cases f with
  | nil =>
    injection hsome with hout
    subst hout
    simp
  | cons a0 rest =>
    rw [enumerator_fmap_flat_shape _ _ (List.cons_ne_nil a0 rest)] at hsome
    by_cases hany : ((a0 :: rest).map g).any (fun c => c.length = 0)
    · rw [if_pos hany] at hsome
      cases hsome
    · rw [if_neg hany] at hsome
      injection hsome with hout
      subst hout
      have hlen : ∀ c ∈ (a0 :: rest).map g, c.length ≠ 0 := by
        intro c hc hzero
        rw [List.any_eq_true] at hany
        exact hany ⟨c, hc, by simpa using hzero⟩
      have hpos : spec_lcm (((a0 :: rest).map g).map List.length) ≠ 0 := by
        apply spec_lcm_ne_zero
        intro n hn
        obtain ⟨c, hc, rfl⟩ := List.mem_map.mp hn
        exact hlen c hc
      rw [List.mem_flatMap]
      constructor
      · rintro ⟨c, hc, hxc⟩
        rw [flatten_replicate_mem] at hxc
        obtain ⟨a, ha, rfl⟩ := List.mem_map.mp hc
        exact ⟨a, ha, hxc.2⟩
      · rintro ⟨a, ha, hx⟩
        refine ⟨g a, List.mem_map.mpr ⟨a, ha, rfl⟩, ?_⟩
        rw [flatten_replicate_mem]
        refine ⟨?_, hx⟩
        have hga : g a ∈ (a0 :: rest).map g := List.mem_map.mpr ⟨a, ha, rfl⟩
        have hdvd : (g a).length ∣ spec_lcm (((a0 :: rest).map g).map List.length) :=
          dvd_spec_lcm _ _ (List.mem_map.mpr ⟨g a, hga, rfl⟩)
        have hls : (g a).length ≠ 0 := hlen (g a) hga
        have hle := Nat.le_of_dvd (Nat.pos_of_ne_zero hpos) hdvd
        have hone : 1 ≤ spec_lcm (((a0 :: rest).map g).map List.length)
            / (g a).length :=
          (Nat.one_le_div_iff (Nat.pos_of_ne_zero hls)).mpr hle
        omega

theorem run_unique_mem {V : Type} [DecidableEq V] (steps : List (FStep V))
    (u f out : List V) (hmem : ∀ x, x ∈ u ↔ x ∈ f)
    (hrun : run_enumerator_flat steps f = some out) :
    ∀ x, x ∈ run_unique steps u ↔ x ∈ out := by
  induction steps generalizing u f with
  | nil =>
    injection hrun with hout
    subst hout
    exact hmem
  | cons s rest ih =>
    cases s with
    | fmap g =>
      refine ih (UniqueEnumerator.fmap u g) (Enumerator.fmap f g) ?_ hrun
      intro x
      rw [mem_unique_fmap, mem_enumerator_fmap]
      constructor
      · rintro ⟨a, ha, hx⟩
        exact ⟨a, (hmem a).mp ha, hx⟩
      · rintro ⟨a, ha, hx⟩
        exact ⟨a, (hmem a).mpr ha, hx⟩
    | fmap_rand R space g =>
      refine ih (UniqueEnumerator.fmap_rand u space g)
        (Enumerator.fmap_rand f space g) ?_ hrun
      intro x
      rw [mem_unique_fmap_rand, mem_enumerator_fmap_rand]
      constructor
      · rintro ⟨a, ha, hr⟩
        exact ⟨a, (hmem a).mp ha, hr⟩
      · rintro ⟨a, ha, hr⟩
        exact ⟨a, (hmem a).mpr ha, hr⟩
    | fmap_rand_range R range g =>
      refine ih (UniqueEnumerator.fmap_rand_range u range g)
        (Enumerator.fmap_rand_range f range g) ?_ hrun
      intro x
      rw [unique_fmap_rand_range_eq, enumerator_fmap_rand_range_eq,
        mem_unique_fmap_rand, mem_enumerator_fmap_rand]
      constructor
      · rintro ⟨a, ha, hr⟩
        exact ⟨a, (hmem a).mp ha, hr⟩
      · rintro ⟨a, ha, hr⟩
        exact ⟨a, (hmem a).mpr ha, hr⟩
    | fmap_flat g =>
      have hrun2 : (match Enumerator.fmap_flat f g with
          | none => none
          | some f2 => run_enumerator_flat rest f2) = some out := hrun
      cases hE : Enumerator.fmap_flat f g with
      | none =>
        rw [hE] at hrun2
        cases hrun2
      | some f2 =>
        rw [hE] at hrun2
        refine ih (UniqueEnumerator.fmap_flat u g) f2 ?_ hrun2
        intro x
        rw [mem_unique_fmap_flat, mem_enumerator_fmap_flat_of_some f g f2 hE]
        constructor
        · rintro ⟨a, ha, hx⟩
          exact ⟨a, (hmem a).mp ha, hx⟩
        · rintro ⟨a, ha, hx⟩
          exact ⟨a, (hmem a).mpr ha, hx⟩

/- ------------------------------------------------------------------ -/
/- Claim theorems.                                                     -/
/- ------------------------------------------------------------------ -/

/-- C2: for every input sequence, Enumerator's fmap_rand returns exactly the
Cartesian-product sequence — for each `a` in `f` in order, for each `r` in the
sample space in order, the element `func a r`; the output length is
`|f| * |space|`; the element at flat index `i * |space| + j` is
`func f[i] space[j]` (outer over `f`, inner over the sample space); and
fmap_rand_range behaves identically with the supplied range's sample space. -/
theorem c2_enumerator_fmap_rand_cartesian {A B R : Type} (f : List A)
    (space : List R) (func : A → R → B) (range : RVRange R) (i j : Nat)
    (hi : i < f.length) (hj : j < space.length) :
    Enumerator.fmap_rand f space func = f.flatMap (fun a => space.map (func a))
    ∧ (Enumerator.fmap_rand f space func).length = f.length * space.length
    ∧ (Enumerator.fmap_rand f space func)[i * space.length + j]?
        = some (func (f.get ⟨i, hi⟩) (space.get ⟨j, hj⟩))
    ∧ Enumerator.fmap_rand_range f range func
        = Enumerator.fmap_rand f range.sample_space func :=
  ⟨Enumerator.fmap_rand_eq f space func,
    enumerator_fmap_rand_length f space func,
    enumerator_fmap_rand_get f space func i j hi hj,
    rfl⟩

/-- C2 witness: the Cartesian-product theorem at `f = [0, 1]`,
`space = [10, 20]`, `func = (+)`, `i = 1`, `j = 0`. -/
theorem c2_witness :
    ((1 : Nat) < ([(0 : Nat), 1] : List Nat).length)
    ∧ ((0 : Nat) < ([(10 : Nat), 20] : List Nat).length)
    ∧ (Enumerator.fmap_rand [(0 : Nat), 1] [(10 : Nat), 20]
          (fun a r => a + r)
        = [(0 : Nat), 1].flatMap (fun a => [(10 : Nat), 20].map
            ((fun a r => a + r) a))
      ∧ (Enumerator.fmap_rand [(0 : Nat), 1] [(10 : Nat), 20]
            (fun a r => a + r)).length
          = ([(0 : Nat), 1] : List Nat).length
            * ([(10 : Nat), 20] : List Nat).length
      ∧ (Enumerator.fmap_rand [(0 : Nat), 1] [(10 : Nat), 20]
            (fun a r => a + r))[1 * ([(10 : Nat), 20] : List Nat).length + 0]?
          = some ((fun a r => a + r)
              (([(0 : Nat), 1] : List Nat).get ⟨1, by decide⟩)
              (([(10 : Nat), 20] : List Nat).get ⟨0, by decide⟩))
      ∧ Enumerator.fmap_rand_range [(0 : Nat), 1] (RVRange.mk [(10 : Nat), 20])
            (fun a r => a + r)
          = Enumerator.fmap_rand [(0 : Nat), 1]
              (RVRange.mk [(10 : Nat), 20]).sample_space (fun a r => a + r)) :=
  ⟨by decide, by decide,
    c2_enumerator_fmap_rand_cartesian [(0 : Nat), 1] [(10 : Nat), 20]
      (fun a r => a + r) (RVRange.mk [(10 : Nat), 20]) 1 0
      (by decide) (by decide)⟩

/-- C5: Enumerator-Counter projection.  For any process built from `pure`
followed by any sequence of `map`, `map_rand` and `map_rand_range` stages
(same functions, same random variable sample spaces, same ranges), the
histogram of the Enumerator output — each value sent to its multiplicity —
equals the Counter output's weight for that value, and the sum of the
Counter weights equals the length of the Enumerator output. -/
theorem c5_counter_enumerator_projection {V : Type} [DecidableEq V]
    (steps : List (PStep V)) (init : V) (b : V) :
    weight (run_counter steps (Counter.pure init)) b
      = multiplicity (run_enumerator steps (Enumerator.pure init)) b
    ∧ sum_values (run_counter steps (Counter.pure init))
      = (run_enumerator steps (Enumerator.pure init)).length := by
  have hbase : cmset (Counter.pure init)
      = ((Enumerator.pure init : List V) : Multiset V) := by
    simp [Counter.pure, Enumerator.pure, cmset]
  have hinv := run_counter_cmset steps _ _ hbase
  refine ⟨?_, ?_⟩
  · rw [weight_eq_sum_smul,
      sum_smul_of_cmset_eq _ _ hinv (fun a => if a = b then 1 else 0)]
    rfl
  · rw [sum_values_eq_sum_smul,
      sum_smul_of_cmset_eq _ _ hinv (fun _ => (1 : Nat)), sum_map_one]

/-- C1 (amended): Counter's flat_map performs weight-LCM rescaling.  For an
input map `f` whose every child `func a` has positive total weight, with
`sum_a` the sum of values of the child and `M` the lcm of the sums, the result
assigns every key `b` the total of `(M / sum_a) * inner * outer` over all
entries `(b, inner)` of the children and `(a, outer)` of `f`; each outer
branch contributes total mass `M * outer` (the claim's `lcm * outer / sum_a`
is wrong — see the counterexample); the sum of all output weights is
`outer_sum * M`; and an empty input yields the empty map. -/
theorem c1_counter_fmap_flat_rescaling {A B : Type} [DecidableEq B]
    (f : List (A × Nat)) (func : A → List (B × Nat))
    (h : ∀ p ∈ f, 0 < sum_values (func p.1)) :
    ∃ res, Counter.fmap_flat f func = some res
      ∧ (∀ b, weight res b = (f.map (fun p =>
            spec_lcm (f.map (fun p2 => sum_values (func p2.1)))
              / sum_values (func p.1) * weight (func p.1) b * p.2)).sum)
      ∧ sum_values res
          = sum_values f * spec_lcm (f.map (fun p => sum_values (func p.1)))
      ∧ (∀ p ∈ f,
          spec_lcm (f.map (fun p2 => sum_values (func p2.1)))
              / sum_values (func p.1) * sum_values (func p.1) * p.2
            = spec_lcm (f.map (fun p2 => sum_values (func p2.1))) * p.2)
      ∧ (f = [] → res = []) := by
  have hdvd : ∀ p ∈ f, sum_values (func p.1)
      ∣ spec_lcm (f.map (fun p2 => sum_values (func p2.1))) := by
    intro p hp
    exact dvd_spec_lcm _ _ (List.mem_map.mpr ⟨p, hp, rfl⟩)
  cases f with
  | nil =>
    refine ⟨[], rfl, ?_, ?_, ?_, fun _ => rfl⟩
    · intro b
      simp [weight]
    · simp [sum_values]
    · simp
  | cons p0 rest =>
    rw [counter_fmap_flat_shape _ _ (List.cons_ne_nil p0 rest)]
    have hany : (((p0 :: rest).map
        (fun p => (func p.1, p.2, sum_values (func p.1)))).any
          (fun t => t.2.2 = 0)) = false := by
      simp only [List.any_eq_false, List.mem_map, decide_eq_true_eq]
      rintro t ⟨p2, hp2, rfl⟩
      show ¬sum_values (func p2.1) = 0
      have := h p2 hp2
      omega
    rw [hany]
    simp only [Bool.false_eq_true, if_false]
    refine ⟨_, rfl, ?_, ?_, ?_, ?_⟩
    · intro b
      rw [counter_flat_fold_weight, weight_nil, Nat.zero_add]
      simp only [List.map_map]
      rfl
    · rw [counter_flat_fold_sum]
      have hz : sum_values ([] : List (B × Nat)) = 0 := rfl
      rw [hz, Nat.zero_add]
      simp only [List.map_map]
      have hcong : ∀ p ∈ p0 :: rest,
          ((fun t : List (B × Nat) × Nat × Nat =>
              spec_lcm (List.map
                  ((fun t : List (B × Nat) × Nat × Nat => t.2.2) ∘
                    (fun p : A × Nat => (func p.1, p.2, sum_values (func p.1))))
                  (p0 :: rest)) / t.2.2 * sum_values t.1 * t.2.1) ∘
            (fun p : A × Nat => (func p.1, p.2, sum_values (func p.1)))) p
          = spec_lcm ((p0 :: rest).map (fun p2 => sum_values (func p2.1))) * p.2 := by
        intro p hp
        show spec_lcm ((p0 :: rest).map (fun p2 => sum_values (func p2.1)))
            / sum_values (func p.1) * sum_values (func p.1) * p.2 = _
        rw [Nat.div_mul_cancel (hdvd p hp)]
      rw [List.map_congr_left hcong, List.sum_map_mul_left, Nat.mul_comm]
      rfl
    · intro p hp
      rw [Nat.div_mul_cancel (hdvd p hp)]
    · intro heq
      exact absurd heq (List.cons_ne_nil _ _)

/-- C1 counterexample: with `f = {0 ↦ 1}` and the single child
`{0 ↦ 1, 1 ↦ 1}` (so `outer = 1`, `sum_a = 2`, `M = lcm = 2`), the code's
output — which is exactly the one branch's contribution — carries total mass
`2`, whereas the claim's per-branch formula `lcm * outer / sum_a` yields `1`. -/
theorem c1_counterexample :
    (Counter.fmap_flat [((0 : Nat), 1)]
        (fun _ => [((0 : Nat), 1), (1, 1)])).map sum_values = some 2
      ∧ spec_lcm [sum_values [((0 : Nat), 1), (1, 1)]] * 1
          / sum_values [((0 : Nat), 1), (1, 1)] = 1
      ∧ (2 : Nat) ≠ 1 := by decide

/-- C1 witness: the amended rescaling theorem instantiated at the one-entry
map `{0 ↦ 1}` with constant child `{5 ↦ 2}`. -/
theorem c1_witness :
    (∀ p ∈ [((0 : Nat), 1)],
        0 < sum_values ((fun _ : Nat => [((5 : Nat), 2)]) p.1))
    ∧ ∃ res, Counter.fmap_flat [((0 : Nat), 1)]
          (fun _ : Nat => [((5 : Nat), 2)]) = some res
        ∧ (∀ b, weight res b = ([((0 : Nat), 1)].map (fun p =>
              spec_lcm ([((0 : Nat), 1)].map
                  (fun p2 => sum_values ((fun _ : Nat => [((5 : Nat), 2)]) p2.1)))
                / sum_values ((fun _ : Nat => [((5 : Nat), 2)]) p.1)
                * weight ((fun _ : Nat => [((5 : Nat), 2)]) p.1) b * p.2)).sum)
        ∧ sum_values res = sum_values [((0 : Nat), 1)]
            * spec_lcm ([((0 : Nat), 1)].map
                (fun p => sum_values ((fun _ : Nat => [((5 : Nat), 2)]) p.1)))
        ∧ (∀ p ∈ [((0 : Nat), 1)],
            spec_lcm ([((0 : Nat), 1)].map
                  (fun p2 => sum_values ((fun _ : Nat => [((5 : Nat), 2)]) p2.1)))
                / sum_values ((fun _ : Nat => [((5 : Nat), 2)]) p.1)
                * sum_values ((fun _ : Nat => [((5 : Nat), 2)]) p.1) * p.2
              = spec_lcm ([((0 : Nat), 1)].map
                  (fun p2 => sum_values ((fun _ : Nat => [((5 : Nat), 2)]) p2.1)))
                * p.2)
        ∧ ([((0 : Nat), 1)] = ([] : List (Nat × Nat)) → res = []) :=
  ⟨by decide,
    c1_counter_fmap_flat_rescaling [((0 : Nat), 1)]
      (fun _ : Nat => [((5 : Nat), 2)]) (by decide)⟩

/-- C3 counterexample: a non-empty input whose only child is empty makes both
flat_map implementations divide by zero — a runtime panic, modelled `none` —
instead of short-circuiting to an empty output or skipping the branch. -/
theorem c3_counterexample :
    Enumerator.fmap_flat [(0 : Nat)] (fun _ => ([] : List Nat)) = none
      ∧ Counter.fmap_flat [((0 : Nat), 1)]
          (fun _ => ([] : List (Nat × Nat))) = none := by decide

/-- C3 (amended): flat_map raises no runtime error when the input functor is
empty (the result is then the empty output) or when every child is non-empty;
but whenever the input is non-empty and some child has zero length
(Enumerator) or zero total weight (Counter), the operation fails at runtime
with a division-by-zero panic (modelled `none`) — it neither short-circuits
to an empty output nor skips the offending branch. -/
theorem c3_fmap_flat_panic_characterization {A B : Type} [DecidableEq B]
    (f : List A) (funcE : A → List B) (m : List (A × Nat))
    (funcC : A → List (B × Nat)) :
    (Enumerator.fmap_flat f funcE = none ↔ f ≠ [] ∧ ∃ a ∈ f, funcE a = [])
    ∧ (Counter.fmap_flat m funcC = none
        ↔ m ≠ [] ∧ ∃ p ∈ m, sum_values (funcC p.1) = 0)
    ∧ Enumerator.fmap_flat ([] : List A) funcE = some []
    ∧ Counter.fmap_flat ([] : List (A × Nat)) funcC = some [] :=
  ⟨enumerator_fmap_flat_eq_none_iff f funcE,
    counter_fmap_flat_eq_none_iff m funcC, rfl, rfl⟩

/-- C4: Enumerator's flat_map performs length-LCM flattening: for an input
sequence whose every child is non-empty, with `L` the lcm of the child
lengths, the result is the concatenation over `a` in `f` in order of `func a`
repeated exactly `L / |func a|` times as whole-sequence concatenation; and an
empty input produces the empty sequence. -/
theorem c4_enumerator_fmap_flat_lcm {A B : Type} (f : List A)
    (func : A → List B) (h : ∀ a ∈ f, (func a).length ≠ 0) :
    Enumerator.fmap_flat f func
      = some (f.flatMap (fun a =>
          (List.replicate
              (spec_lcm (f.map (fun a2 => (func a2).length)) / (func a).length)
            (func a)).flatten))
    ∧ Enumerator.fmap_flat ([] : List A) func = some [] :=
  ⟨enumerator_fmap_flat_spec f func h, rfl⟩

/-- C4 witness: length-LCM flattening at `f = [0, 1]` with children `[5]` and
`[6, 7]`: the lcm is 2, so the first child is emitted twice and the second
once, giving `[5, 5, 6, 7]`. -/
theorem c4_witness :
    (∀ a ∈ [(0 : Nat), 1],
        (((fun a => if a = 0 then [(5 : Nat)] else [6, 7]) a)).length ≠ 0)
    ∧ (Enumerator.fmap_flat [(0 : Nat), 1]
          (fun a => if a = 0 then [(5 : Nat)] else [6, 7])
        = some ([(0 : Nat), 1].flatMap (fun a =>
            (List.replicate
                (spec_lcm ([(0 : Nat), 1].map (fun a2 =>
                    (((fun a => if a = 0 then [(5 : Nat)] else [6, 7]) a2)).length))
                  / (((fun a => if a = 0 then [(5 : Nat)] else [6, 7]) a)).length)
              ((fun a => if a = 0 then [(5 : Nat)] else [6, 7]) a)).flatten))
      ∧ Enumerator.fmap_flat ([] : List Nat)
          (fun a => if a = 0 then [(5 : Nat)] else [6, 7]) = some []) :=
  ⟨by decide,
    c4_enumerator_fmap_flat_lcm [(0 : Nat), 1]
      (fun a => if a = 0 then [(5 : Nat)] else [6, 7]) (by decide)⟩

/-- C7: PopulationSampler bound.  For an input of length at most `N`, `map`
returns a sequence of length at most `N`; `map_rand` and `map_rand_range`
always return exactly `min (expansion length) N` elements — in particular at
most `N`, and exactly `N` whenever the Cartesian expansion exceeded `N`
(the shrink loop terminates there: the function is total). -/
theorem c7_population_sampler_bound {A B R : Type} (N : Nat) (f : List A)
    (g : A → B) (rng : Rng) (space : List R) (func : A → R → B)
    (range : RVRange R) (h : f.length ≤ N) :
    (PopulationSampler.fmap N f g).length ≤ N
    ∧ ((PopulationSampler.fmap_rand N f rng space func).1).length
        = min (f.length * space.length) N
    ∧ ((PopulationSampler.fmap_rand N f rng space func).1).length ≤ N
    ∧ ((PopulationSampler.fmap_rand_range N f range rng func).1).length
        = min (f.length * range.sample_space.length) N
    ∧ ((PopulationSampler.fmap_rand_range N f range rng func).1).length
        ≤ N := by
  have hrand : ((PopulationSampler.fmap_rand N f rng space func).1).length
      = min (f.length * space.length) N := by
    rw [population_sampler_fmap_rand_eq, shrink_to_capacity_length,
      enumerator_fmap_rand_length]
  have hrange : ((PopulationSampler.fmap_rand_range N f range rng func).1).length
      = min (f.length * range.sample_space.length) N := by
    rw [population_sampler_fmap_rand_range_eq, shrink_to_capacity_length,
      enumerator_fmap_rand_length]
  refine ⟨?_, hrand, ?_, hrange, ?_⟩
  · show (f.map g).length ≤ N
    rw [List.length_map]
    exact h
  · rw [hrand]
    exact Nat.min_le_right _ _
  · rw [hrange]
    exact Nat.min_le_right _ _

/-- C7 witness: the bound theorem at `N = 3`, `f = [0, 1]`,
`space = [true, false]`: the expansion has 4 elements and is shrunk to
exactly 3. -/
theorem c7_witness :
    ([(0 : Nat), 1] : List Nat).length ≤ 3
    ∧ ((PopulationSampler.fmap 3 [(0 : Nat), 1] (fun a => a + 1)).length ≤ 3
      ∧ ((PopulationSampler.fmap_rand 3 [(0 : Nat), 1] (Rng.mk (fun _ => 0) 0)
            [true, false] (fun a r => if r then a else a + 10)).1).length
          = min (([(0 : Nat), 1] : List Nat).length
              * ([true, false] : List Bool).length) 3
      ∧ ((PopulationSampler.fmap_rand 3 [(0 : Nat), 1] (Rng.mk (fun _ => 0) 0)
            [true, false] (fun a r => if r then a else a + 10)).1).length ≤ 3
      ∧ ((PopulationSampler.fmap_rand_range 3 [(0 : Nat), 1]
            (RVRange.mk [true, false]) (Rng.mk (fun _ => 0) 0)
            (fun a r => if r then a else a + 10)).1).length
          = min (([(0 : Nat), 1] : List Nat).length
              * (RVRange.mk [true, false]).sample_space.length) 3
      ∧ ((PopulationSampler.fmap_rand_range 3 [(0 : Nat), 1]
            (RVRange.mk [true, false]) (Rng.mk (fun _ => 0) 0)
            (fun a r => if r then a else a + 10)).1).length ≤ 3) :=
  ⟨by decide,
    c7_population_sampler_bound 3 [(0 : Nat), 1] (fun a => a + 1)
      (Rng.mk (fun _ => 0) 0) [true, false]
      (fun a r => if r then a else a + 10) (RVRange.mk [true, false])
      (by decide)⟩

/-- C10: when the Cartesian-product expansion fits in the capacity
(`|f| * |space| ≤ N`), PopulationSampler's fmap_rand returns the expansion
unchanged — identical in content and order to Enumerator's fmap_rand — and
leaves the RNG untouched; likewise fmap_rand_range with the range's sample
space. -/
theorem c10_population_sampler_full_expansion {A B R : Type} (N : Nat)
    (f : List A) (rng : Rng) (space : List R) (func : A → R → B)
    (range : RVRange R) (h : f.length * space.length ≤ N)
    (h2 : f.length * range.sample_space.length ≤ N) :
    PopulationSampler.fmap_rand N f rng space func
        = (Enumerator.fmap_rand f space func, rng)
    ∧ PopulationSampler.fmap_rand_range N f range rng func
        = (Enumerator.fmap_rand_range f range func, rng) := by
  constructor
  · rw [population_sampler_fmap_rand_eq,
      PopulationSampler.shrink_to_capacity, dif_neg]
    rw [enumerator_fmap_rand_length]
    omega
  · rw [population_sampler_fmap_rand_range_eq,
      PopulationSampler.shrink_to_capacity, dif_neg]
    · rfl
    · rw [enumerator_fmap_rand_length]
      omega

/-- C10 witness: with `N = 4` and a 2-by-2 expansion, PopulationSampler
returns the full Cartesian product and the untouched RNG. -/
theorem c10_witness :
    ([(0 : Nat), 1] : List Nat).length * ([true, false] : List Bool).length ≤ 4
    ∧ ([(0 : Nat), 1] : List Nat).length
        * (RVRange.mk [true, false]).sample_space.length ≤ 4
    ∧ (PopulationSampler.fmap_rand 4 [(0 : Nat), 1] (Rng.mk (fun _ => 7) 5)
          [true, false] (fun a r => if r then a else a + 10)
        = (Enumerator.fmap_rand [(0 : Nat), 1] [true, false]
            (fun a r => if r then a else a + 10), Rng.mk (fun _ => 7) 5)
      ∧ PopulationSampler.fmap_rand_range 4 [(0 : Nat), 1]
            (RVRange.mk [true, false]) (Rng.mk (fun _ => 7) 5)
            (fun a r => if r then a else a + 10)
          = (Enumerator.fmap_rand_range [(0 : Nat), 1]
              (RVRange.mk [true, false])
              (fun a r => if r then a else a + 10), Rng.mk (fun _ => 7) 5)) :=
  ⟨by decide, by decide,
    c10_population_sampler_full_expansion 4 [(0 : Nat), 1]
      (Rng.mk (fun _ => 7) 5) [true, false]
      (fun a r => if r then a else a + 10) (RVRange.mk [true, false])
      (by decide) (by decide)⟩

/-- C8: determinism of enumerating strategies.  Enumerator, UniqueEnumerator
and Counter bind the RNG parameter as `_` and never touch it: for any two
generator states the outputs of fmap_rand and fmap_rand_range are equal, and
the generator comes back in exactly its incoming state — it is never
sampled. -/
theorem c8_enumerating_strategies_ignore_rng {A B R : Type} [DecidableEq B]
    (f : List A) (m : List (A × Nat)) (rng1 rng2 : Rng) (space : List R)
    (range : RVRange R) (func : A → R → B) :
    ((Enumerator.fmap_rand_with_rng f rng1 space func).1
        = (Enumerator.fmap_rand_with_rng f rng2 space func).1
      ∧ (Enumerator.fmap_rand_with_rng f rng1 space func).2 = rng1)
    ∧ ((Enumerator.fmap_rand_range_with_rng f range rng1 func).1
        = (Enumerator.fmap_rand_range_with_rng f range rng2 func).1
      ∧ (Enumerator.fmap_rand_range_with_rng f range rng1 func).2 = rng1)
    ∧ ((Counter.fmap_rand_with_rng m rng1 space func).1
        = (Counter.fmap_rand_with_rng m rng2 space func).1
      ∧ (Counter.fmap_rand_with_rng m rng1 space func).2 = rng1)
    ∧ ((Counter.fmap_rand_range_with_rng m range rng1 func).1
        = (Counter.fmap_rand_range_with_rng m range rng2 func).1
      ∧ (Counter.fmap_rand_range_with_rng m range rng1 func).2 = rng1)
    ∧ ((UniqueEnumerator.fmap_rand_with_rng f rng1 space func).1
        = (UniqueEnumerator.fmap_rand_with_rng f rng2 space func).1
      ∧ (UniqueEnumerator.fmap_rand_with_rng f rng1 space func).2 = rng1)
    ∧ ((UniqueEnumerator.fmap_rand_range_with_rng f range rng1 func).1
        = (UniqueEnumerator.fmap_rand_range_with_rng f range rng2 func).1
      ∧ (UniqueEnumerator.fmap_rand_range_with_rng f range rng1 func).2
          = rng1) :=
  ⟨⟨rfl, rfl⟩, ⟨rfl, rfl⟩, ⟨rfl, rfl⟩, ⟨rfl, rfl⟩, ⟨rfl, rfl⟩, ⟨rfl, rfl⟩⟩

/-- C9: `RandomVariable` is implemented for all twelve integer types
including the pointer-width ones, but the `RandomVariableRange`
instantiations in `random_variable_ranges.rs` cover only the ten fixed-width
types — `usize` and `isize` are absent from both the half-open and the
closed block, contradicting the claim (and the crate's own documentation);
for the ranges that are provided, `sample_space` enumerates exactly the
members of the range in increasing order. -/
theorem c9_random_variable_range_impls :
    (IntTy.usize ∈ random_variable_int_impls
      ∧ IntTy.isize ∈ random_variable_int_impls)
    ∧ (IntTy.usize ∉ range_impls ∧ IntTy.usize ∉ range_inclusive_impls
      ∧ IntTy.isize ∉ range_impls ∧ IntTy.isize ∉ range_inclusive_impls)
    ∧ (∀ lo hi x : Int,
        (x ∈ range_sample_space lo hi ↔ lo ≤ x ∧ x < hi)
        ∧ (x ∈ range_inclusive_sample_space lo hi ↔ lo ≤ x ∧ x ≤ hi))
    ∧ (∀ lo hi : Int, (range_sample_space lo hi).Pairwise (· < ·)
        ∧ (range_inclusive_sample_space lo hi).Pairwise (· < ·)) := by
  refine ⟨by decide, by decide, ?_, ?_⟩
  · intro lo hi x
    constructor
    · unfold range_sample_space
      simp only [List.mem_map, List.mem_range]
      constructor
      · rintro ⟨k, hk, rfl⟩
        omega
      · rintro ⟨h1, h2⟩
        exact ⟨(x - lo).toNat, by omega, by omega⟩
    · unfold range_inclusive_sample_space
      simp only [List.mem_map, List.mem_range]
      constructor
      · rintro ⟨k, hk, rfl⟩
        omega
      · rintro ⟨h1, h2⟩
        exact ⟨(x - lo).toNat, by omega, by omega⟩
  · intro lo hi
    constructor
    · exact (List.pairwise_lt_range _).map _ (fun a b hab => by omega)
    · exact (List.pairwise_lt_range _).map _ (fun a b hab => by omega)

/-- C6: UniqueEnumerator support equality.  For any process built from `pure`
followed by any sequence of `map`, `map_rand`, `map_rand_range` and
`flat_map` stages (same functions, same sample spaces and ranges, same child
elements), whenever the Enumerator run produces an output, the set produced
by UniqueEnumerator has exactly the distinct values of that output: an
element belongs to the UniqueEnumerator result iff it occurs in the
Enumerator result. -/
theorem c6_unique_enumerator_support {V : Type} [DecidableEq V]
    (steps : List (FStep V)) (init : V) (out : List V)
    (h : run_enumerator_flat steps (Enumerator.pure init) = some out) (x : V) :
    x ∈ run_unique steps (UniqueEnumerator.pure init) ↔ x ∈ out :=
  run_unique_mem steps (UniqueEnumerator.pure init) (Enumerator.pure init) out
    (fun _ => Iff.rfl) h x

/-- C6 witness: a process with one random stage and one flat_map stage over
`Nat`, starting from 0: the Enumerator output is `[1, 2, 2, 3]` and
membership in the UniqueEnumerator result agrees at `x = 2`. -/
theorem c6_witness :
    run_enumerator_flat
        [FStep.fmap_rand Bool [false, true] (fun v r => if r then v + 1 else v),
          FStep.fmap_flat (fun v => [v + 1, v + 2])]
        (Enumerator.pure (0 : Nat)) = some [1, 2, 2, 3]
    ∧ ((2 : Nat) ∈ run_unique
          [FStep.fmap_rand Bool [false, true] (fun v r => if r then v + 1 else v),
            FStep.fmap_flat (fun v => [v + 1, v + 2])]
          (UniqueEnumerator.pure (0 : Nat))
        ↔ (2 : Nat) ∈ [1, 2, 2, 3]) :=
  ⟨by decide,
    c6_unique_enumerator_support
      [FStep.fmap_rand Bool [false, true] (fun v r => if r then v + 1 else v),
        FStep.fmap_flat (fun v => [v + 1, v + 2])]
      0 [1, 2, 2, 3] (by decide) 2⟩

end RandFunctors
